import Mathlib

/-!
Verification development for the Content-Disposition parsing core of the
multer repository (file src/content_disposition.rs).  Byte strings are
modelled as List Nat (each element a byte value below 256); fallible Rust
functions returning Option are modelled as Lean Option; the while loops of
the source are modelled with an explicit fuel argument that is always
instantiated with a bound (header length plus one) proved sufficient, since
every loop iteration strictly shrinks the remaining slice.  Decoded Rust
strings are modelled by their UTF-8 byte sequences together with an
explicit UTF-8 validity check mirroring str::from_utf8.
-/

set_option linter.unusedVariables false
set_option linter.unnecessarySimpa false

/-- Byte predicate mirroring u8::is_ascii_whitespace: space, tab, newline,
form feed, carriage return. -/
def is_ascii_ws (b : Nat) : Bool :=
  b == 32 || b == 9 || b == 10 || b == 12 || b == 13

/-- Mirrors u8::to_ascii_lowercase. -/
def to_ascii_lower (b : Nat) : Nat :=
  if 65 ≤ b ∧ b ≤ 90 then b + 32 else b

/-- Index of the first occurrence of byte c, mirroring memchr::memchr. -/
def memchr (c : Nat) : List Nat → Option Nat
  | [] => none
  | b :: rest => if b = c then some 0 else (memchr c rest).map (· + 1)

/-- Index of the first occurrence of either byte, mirroring memchr::memchr2. -/
def memchr2 (c1 c2 : Nat) : List Nat → Option Nat
  | [] => none
  | b :: rest => if b = c1 ∨ b = c2 then some 0 else (memchr2 c1 c2 rest).map (· + 1)

/-- Mirrors trim_ascii_ws_start of the source: longest suffix with no
leading ASCII whitespace byte. -/
def trim_ascii_ws_start (bytes : List Nat) : List Nat :=
  bytes.dropWhile is_ascii_ws

/-- Mirrors trim_ascii_ws_then of the source: trim leading whitespace,
then demand and consume one specific delimiter byte. -/
def trim_ascii_ws_then (bytes : List Nat) (c : Nat) : Option (List Nat) :=
  match trim_ascii_ws_start bytes with
  | first :: rest => if first = c then some rest else none
  | [] => none

/-- Mirrors matches_prefix of the source: case-insensitive byte prefix test. -/
def matches_pre (bytes pre : List Nat) : Bool :=
  decide (bytes.length ≥ pre.length) &&
    ((bytes.take pre.length).zip pre).all
      (fun p => to_ascii_lower p.1 == to_ascii_lower p.2)

/-- Value of an ASCII hexadecimal digit byte, if it is one. -/
def hexDigitVal (b : Nat) : Option Nat :=
  if 48 ≤ b ∧ b ≤ 57 then some (b - 48)
  else if 97 ≤ b ∧ b ≤ 102 then some (b - 87)
  else if 65 ≤ b ∧ b ≤ 70 then some (b - 55)
  else none

/-- Mirrors the composite str::from_utf8 followed by u8::from_str_radix
with radix 16 applied to a two-byte slice in percent_decode.  Rust
from_str_radix also accepts an optional leading plus sign, so a plus byte
followed by one hexadecimal digit succeeds; every other non-two-digit
combination fails, as does any non-ASCII byte pair (from_utf8 failure). -/
def hex_pair_val (a b : Nat) : Option Nat :=
  match hexDigitVal a, hexDigitVal b with
  | some d1, some d2 => some (16 * d1 + d2)
  | _, _ => if a = 43 then hexDigitVal b else none

/-- The scanning loop of percent_decode.  The source guard
i + 2 < input.len() holds exactly when at least three bytes remain, which
is the first pattern.  A failed hex parse returns None for the whole
function, exactly as the question-mark operator does in the source. -/
def pdLoop : List Nat → Option (List Nat)
  | 37 :: a :: b :: rest =>
    (match hex_pair_val a b with
     | some byte => (pdLoop rest).map (byte :: ·)
     | none => none)
  | b :: rest => (pdLoop rest).map (b :: ·)
  | [] => some []

/-- Mirrors percent_decode of the source. -/
def percent_decode (input : List Nat) : Option (List Nat) :=
  if 37 ∈ input then pdLoop input else some input

/-- UTF-8 validity of a byte sequence, mirroring str::from_utf8 success
(no overlong forms, no surrogates, maximum code point 0x10FFFF). -/
def utf8Cont (b : Nat) : Bool := 128 ≤ b && b ≤ 191

def utf8Valid : List Nat → Bool
  | [] => true
  | b :: rest =>
    if b ≤ 127 then utf8Valid rest
    else if 194 ≤ b ∧ b ≤ 223 then
      match rest with
      | c :: r => utf8Cont c && utf8Valid r
      | [] => false
    else if b = 224 then
      match rest with
      | c :: d :: r => (160 ≤ c && c ≤ 191) && utf8Cont d && utf8Valid r
      | _ => false
    else if 225 ≤ b ∧ b ≤ 236 then
      match rest with
      | c :: d :: r => utf8Cont c && utf8Cont d && utf8Valid r
      | _ => false
    else if b = 237 then
      match rest with
      | c :: d :: r => (128 ≤ c && c ≤ 159) && utf8Cont d && utf8Valid r
      | _ => false
    else if 238 ≤ b ∧ b ≤ 239 then
      match rest with
      | c :: d :: r => utf8Cont c && utf8Cont d && utf8Valid r
      | _ => false
    else if b = 240 then
      match rest with
      | c :: d :: e :: r => (144 ≤ c && c ≤ 191) && utf8Cont d && utf8Cont e && utf8Valid r
      | _ => false
    else if 241 ≤ b ∧ b ≤ 243 then
      match rest with
      | c :: d :: e :: r => utf8Cont c && utf8Cont d && utf8Cont e && utf8Valid r
      | _ => false
    else if b = 244 then
      match rest with
      | c :: d :: e :: r => (128 ≤ c && c ≤ 143) && utf8Cont d && utf8Cont e && utf8Valid r
      | _ => false
    else false

/-- Mirrors decode_field of the source: percent-decode, then demand the
result be valid UTF-8 (the decoded string is represented by its bytes). -/
def decode_field (value : List Nat) : Option (List Nat) :=
  match percent_decode value with
  | none => none
  | some d => if utf8Valid d then some d else none

/-- Byte-level version of String.replace applied to the two-byte pattern
backslash quote, as performed by convert_escaped.  Because both pattern
bytes are ASCII and ASCII bytes occur in valid UTF-8 only as whole
characters, the byte-level non-overlapping left-to-right replacement
coincides with the string-level one. -/
def replaceEscQuote : List Nat → List Nat
  | 92 :: 34 :: rest => 34 :: replaceEscQuote rest
  | b :: rest => b :: replaceEscQuote rest
  | [] => []

/-- Mirrors convert_escaped of the source. -/
def convert_escaped (bytes : List Nat) : Option (List Nat) :=
  if utf8Valid bytes then some (replaceEscQuote bytes) else none

/-- Mirrors the ParsedField struct of the source. -/
structure ParsedField where
  value : List Nat
  is_extended : Bool
  is_escaped : Bool
deriving DecidableEq, Repr

/-- Mirrors the ExtendedValue struct of the source; charset and language
tag are kept as byte lists whose UTF-8 validity has been checked. -/
structure ExtendedValue where
  charset : List Nat
  language_tag : Option (List Nat)
  value : List Nat
deriving DecidableEq, Repr

/-- Mirrors parse_extended_value of the source. -/
def parse_extended_value (input : List Nat) : Option ExtendedValue :=
  let t := trim_ascii_ws_start input
  match memchr 39 t with
  | none => none
  | some charset_end =>
    if utf8Valid (t.take charset_end) then
      let after_charset := t.drop (charset_end + 1)
      match memchr 39 after_charset with
      | none => none
      | some lang_end =>
        if utf8Valid (after_charset.take lang_end) then
          let language_tag :=
            if (after_charset.take lang_end).isEmpty then none
            else some (after_charset.take lang_end)
          let remaining := t.drop (charset_end + 1 + lang_end + 1)
          let value1 := remaining.take ((memchr 59 remaining).getD remaining.length)
          let value2 :=
            match memchr 32 value1 with
            | some pos => value1.take pos
            | none => value1
          some ⟨t.take charset_end, language_tag, value2⟩
        else none
    else none

/-- The escaped-quote scanning loop of parse_value.  The index k always
strictly increases, so fuel equal to the slice length plus one suffices. -/
def pv_loop : Nat → List Nat → Nat → Bool → Option (Nat × Bool)
  | 0, _, _, _ => none
  | fuel + 1, rest, k, escaped =>
    if 0 < k ∧ rest.getD (k - 1) 0 = 92 then
      match memchr 34 (rest.drop (k + 1)) with
      | none => none
      | some m => pv_loop fuel rest (k + 1 + m) true
    else some (k, escaped)

/-- Mirrors parse_value of the source. -/
def parse_value (input : List Nat) : Option (List Nat × Bool) :=
  match trim_ascii_ws_then input 34 with
  | some rest =>
    (match memchr 34 rest with
     | none => none
     | some k0 =>
       (pv_loop (rest.length + 1) rest k0 false).map (fun p => (rest.take p.1, p.2)))
  | none =>
    let rest := trim_ascii_ws_start input
    let j := (memchr2 59 32 rest).getD rest.length
    some (rest.take j, false)

/-- The field produced by parse_field of the source (without the returned
remainder, which is the suffix of the header after the prefix in every
success branch of the source). -/
def parse_field_val (header pre : List Nat) : Option ParsedField :=
  let rest0 := trim_ascii_ws_start (header.drop pre.length)
  let step :=
    if rest0 ≠ [] ∧ rest0.headD 0 = 42 then (trim_ascii_ws_start (rest0.drop 1), true)
    else (rest0, false)
  if step.1 ≠ [] ∧ step.1.headD 0 ≠ 61 then none
  else
    match trim_ascii_ws_then step.1 61 with
    | none => none
    | some rest2 =>
      if step.2 then
        (parse_extended_value rest2).map (fun ev => ⟨ev.value, true, false⟩)
      else
        (parse_value rest2).map (fun vb => ⟨vb.1, false, vb.2⟩)

/-- Mirrors parse_field of the source: on success the unconsumed remainder
handed back for continued scanning is the suffix of the header starting
immediately after the matched parameter name. -/
def parse_field (header pre : List Nat) : Option (ParsedField × List Nat) :=
  (parse_field_val header pre).map (fun f => (f, header.drop pre.length))

/-- The scanning loop of find_next_field.  Each iteration consumes at
least the semicolon byte, so fuel equal to the header length plus one
suffices. -/
def fnf_loop (pre : List Nat) : Nat → List Nat → Option (ParsedField × List Nat)
  | 0, _ => none
  | fuel + 1, header =>
    if header.isEmpty then none
    else
      match (if header.headD 0 ≠ 59 then (memchr 59 header).map (fun i => header.drop i) else some header) with
      | none => none
      | some hdr2 =>
        match (if matches_pre (trim_ascii_ws_start (hdr2.drop 1)) pre then
                 parse_field (trim_ascii_ws_start (hdr2.drop 1)) pre
               else none) with
        | some fr => some fr
        | none =>
          match memchr 59 (trim_ascii_ws_start (hdr2.drop 1)) with
          | none => none
          | some i => fnf_loop pre fuel ((trim_ascii_ws_start (hdr2.drop 1)).drop i)

/-- Mirrors find_next_field of the source. -/
def find_next_field (header pre : List Nat) : Option (ParsedField × List Nat) :=
  fnf_loop pre (header.length + 1) (trim_ascii_ws_start header)

/-- Mirrors the ContentDispositionAttr enum. -/
inductive ContentDispositionAttr where
  | Name
  | FileName
deriving DecidableEq, Repr

/-- The byte string name. -/
def nameBytes : List Nat := [110, 97, 109, 101]

/-- The byte string filename. -/
def fileNameBytes : List Nat := [102, 105, 108, 101, 110, 97, 109, 101]

/-- The search prefix selected at the start of extract_from. -/
def attrPre : ContentDispositionAttr → List Nat
  | .Name => nameBytes
  | .FileName => fileNameBytes

/-- The final decoding of a stored regular-form field in extract_from:
unescape when the quoted form contained escapes, otherwise demand the raw
bytes be valid UTF-8. -/
def decodeRegular (field : ParsedField) : Option (List Nat) :=
  if field.is_escaped then convert_escaped field.value
  else if utf8Valid field.value then some field.value else none

/-- The scanning loop of extract_from.  Each found field leaves a strictly
shorter remainder, so fuel equal to the header length plus one suffices. -/
def ef_loop (pre : List Nat) : Nat → List Nat → Option ParsedField → Option (List Nat)
  | 0, _, _ => none
  | fuel + 1, current, reg =>
    match find_next_field current pre with
    | some (field, rest) =>
      if field.is_extended then decode_field field.value
      else ef_loop pre fuel rest (if reg.isNone then some field else reg)
    | none => reg.bind decodeRegular

/-- Mirrors ContentDispositionAttr::extract_from of the source; the
returned decoded string is represented by its UTF-8 bytes. -/
def extract_from (attr : ContentDispositionAttr) (header : List Nat) : Option (List Nat) :=
  ef_loop (attrPre attr) (header.length + 1) header none

/-- The sequence of fields yielded by repeatedly running find_next_field
on the unconsumed remainder, exactly as the loop of extract_from visits
them. -/
def occs_loop (pre : List Nat) : Nat → List Nat → List ParsedField
  | 0, _ => []
  | fuel + 1, current =>
    match find_next_field current pre with
    | none => []
    | some (f, rest) => f :: occs_loop pre fuel rest

/-- All field occurrences of a parameter in a header, in scan order. -/
def occurrences (header pre : List Nat) : List ParsedField :=
  occs_loop pre (header.length + 1) header

/-- The range that ends at the first occurrence of byte c, or the whole
list when c does not occur. -/
def takeToByte (c : Nat) (l : List Nat) : List Nat :=
  l.take ((memchr c l).getD l.length)

/-- Modelled from the words of the specification of parse_extended_value:
the value component is the byte range starting immediately after the
second single-quote delimiter, ending at the first semicolon or end of
input, further truncated at the first space byte found anywhere within
that range; the function fails when either single-quote delimiter is
missing or the charset or language segment is not valid UTF-8. -/
def extended_value_range_spec (input : List Nat) : Option (List Nat) :=
  let t := trim_ascii_ws_start input
  match memchr 39 t with
  | none => none
  | some c =>
    match memchr 39 (t.drop (c + 1)) with
    | none => none
    | some l =>
      if utf8Valid (t.take c) && utf8Valid ((t.drop (c + 1)).take l) then
        some (takeToByte 32 (takeToByte 59 (t.drop (c + 1 + l + 1))))
      else none

/-! Basic lemmas about the byte-level helpers. -/

theorem length_trim_le (l : List Nat) : (trim_ascii_ws_start l).length ≤ l.length := by
  induction l with
  | nil => simp [trim_ascii_ws_start]
  | cons a l ih =>
    simp only [trim_ascii_ws_start, List.dropWhile_cons] at *
    split
    · exact Nat.le_trans ih (Nat.le_succ _)
    · simp

theorem mem_of_mem_trim {b : Nat} {l : List Nat} (h : b ∈ trim_ascii_ws_start l) : b ∈ l := by
  induction l with
  | nil => simpa [trim_ascii_ws_start] using h
  | cons a l ih =>
    simp only [trim_ascii_ws_start, List.dropWhile_cons] at h
    split at h
    · exact List.mem_cons_of_mem _ (ih h)
    · exact h

theorem trim_cons_not_ws {c : Nat} (T : List Nat) (hc : is_ascii_ws c = false) :
    trim_ascii_ws_start (c :: T) = c :: T := by
  simp [trim_ascii_ws_start, List.dropWhile_cons, hc]

theorem trim_append_cons (P T : List Nat) (c : Nat) (hc : is_ascii_ws c = false) :
    trim_ascii_ws_start (P ++ c :: T) = trim_ascii_ws_start P ++ c :: T := by
  induction P with
  | nil => simp [trim_ascii_ws_start, List.dropWhile_cons, hc]
  | cons a P ih =>
    simp only [List.cons_append, trim_ascii_ws_start, List.dropWhile_cons] at *
    split
    · exact ih
    · simp

theorem trim_eq_self {V : List Nat} (h : ∀ b ∈ V, is_ascii_ws b = false) :
    trim_ascii_ws_start V = V := by
  cases V with
  | nil => rfl
  | cons a T => exact trim_cons_not_ws T (h a (List.mem_cons_self a T))

theorem memchr_eq_none {c : Nat} {l : List Nat} (h : ∀ b ∈ l, b ≠ c) : memchr c l = none := by
  induction l with
  | nil => rfl
  | cons a l ih =>
    simp only [memchr]
    rw [if_neg (h a (List.mem_cons_self a l)),
      ih (fun b hb => h b (List.mem_cons_of_mem _ hb))]
    rfl

theorem memchr2_eq_none {c1 c2 : Nat} {l : List Nat} (h : ∀ b ∈ l, b ≠ c1 ∧ b ≠ c2) :
    memchr2 c1 c2 l = none := by
  induction l with
  | nil => rfl
  | cons a l ih =>
    simp only [memchr2]
    have ha := h a (List.mem_cons_self a l)
    rw [if_neg (by tauto), ih (fun b hb => h b (List.mem_cons_of_mem _ hb))]
    rfl

theorem memchr_cons_self (c : Nat) (T : List Nat) : memchr c (c :: T) = some 0 := by
  simp [memchr]

theorem memchr_append_cons {c : Nat} (P T : List Nat) (h : ∀ b ∈ P, b ≠ c) :
    memchr c (P ++ c :: T) = some P.length := by
  induction P with
  | nil => simp [memchr]
  | cons a P ih =>
    simp only [List.cons_append, memchr, List.append_eq]
    rw [if_neg (h a (List.mem_cons_self a P)),
      ih (fun b hb => h b (List.mem_cons_of_mem _ hb))]
    rfl

theorem memchr_some_lt {c : Nat} : ∀ {l : List Nat} {i : Nat}, memchr c l = some i → i < l.length := by
  intro l
  induction l with
  | nil => intro i h; simp [memchr] at h
  | cons a l ih =>
    intro i h
    simp only [memchr] at h
    split at h
    · cases h; simp
    · cases hm : memchr c l with
      | none => rw [hm] at h; simp at h
      | some j =>
        rw [hm] at h
        simp only [Option.map_some', Option.some.injEq] at h
        subst h
        have := ih hm
        simp
        omega

theorem memchr_some_drop {c : Nat} : ∀ {l : List Nat} {i : Nat},
    memchr c l = some i → l.drop i = c :: l.drop (i + 1) := by
  intro l
  induction l with
  | nil => intro i h; simp [memchr] at h
  | cons a l ih =>
    intro i h
    simp only [memchr] at h
    split at h
    · rename_i hac
      cases h
      simp [hac]
    · cases hm : memchr c l with
      | none => rw [hm] at h; simp at h
      | some j =>
        rw [hm] at h
        simp only [Option.map_some', Option.some.injEq] at h
        subst h
        simpa using ih hm

theorem getD_append_lt {L M : List Nat} {n : Nat} (h : n < L.length) :
    (L ++ M).getD n 0 = L.getD n 0 := by
  induction L generalizing n with
  | nil => simp at h
  | cons a L ih =>
    cases n with
    | zero => rfl
    | succ n =>
      simp only [List.cons_append, List.getD_cons_succ]
      exact ih (by simpa using h)

theorem getD_concat (L : List Nat) (d : Nat) (M : List Nat) :
    (L ++ d :: M).getD L.length 0 = d := by
  induction L with
  | nil => rfl
  | cons a L ih => simpa using ih

theorem getD_mem {L : List Nat} {n : Nat} (h : n < L.length) : L.getD n 0 ∈ L := by
  rw [List.getD_eq_getElem L 0 h]
  exact List.getElem_mem h

theorem zip_self_lower_all (p : List Nat) :
    ((p.zip p).all fun q => to_ascii_lower q.1 == to_ascii_lower q.2) = true := by
  induction p with
  | nil => rfl
  | cons a p ih => simp [List.zip_cons_cons, List.all_cons, ih]

theorem matches_pre_append (p r : List Nat) : matches_pre (p ++ r) p = true := by
  simp only [matches_pre]
  rw [List.take_left]
  simp [zip_self_lower_all, List.length_append, Nat.le_add_right]

/-! Lemmas about the field locator loop. -/

theorem parse_field_rest {header pre : List Nat} {f : ParsedField} {r : List Nat}
    (h : parse_field header pre = some (f, r)) : r = header.drop pre.length := by
  rcases Option.map_eq_some'.mp h with ⟨g, _, heq⟩
  cases heq
  rfl

theorem fnf_step_le {header hdr2 : List Nat}
    (h : (if header.headD 0 ≠ 59 then (memchr 59 header).map (fun i => header.drop i)
          else some header) = some hdr2) :
    hdr2.length ≤ header.length := by
  split at h
  · rcases Option.map_eq_some'.mp h with ⟨i, _, rfl⟩
    rw [List.length_drop]
    exact Nat.sub_le _ _
  · simp only [Option.some.injEq] at h
    subst h
    exact Nat.le_refl _

theorem fnf_next_lt {header hdr2 : List Nat} (hne : header ≠ [])
    (hle : hdr2.length ≤ header.length) (i : Nat) :
    ((trim_ascii_ws_start (hdr2.drop 1)).drop i).length < header.length := by
  have h1 : (trim_ascii_ws_start (hdr2.drop 1)).length ≤ (hdr2.drop 1).length := length_trim_le _
  have h2 : (hdr2.drop 1).length = hdr2.length - 1 := List.length_drop 1 hdr2
  have h3 : ((trim_ascii_ws_start (hdr2.drop 1)).drop i).length
      = (trim_ascii_ws_start (hdr2.drop 1)).length - i := List.length_drop i _
  have h4 : 0 < header.length := List.length_pos.mpr hne
  omega

theorem fnf_loop_succ_ne (pre : List Nat) (fuel : Nat) {header : List Nat} (h : header ≠ []) :
    fnf_loop pre (fuel + 1) header =
      match (if header.headD 0 ≠ 59 then (memchr 59 header).map (fun i => header.drop i)
             else some header) with
      | none => none
      | some hdr2 =>
        match (if matches_pre (trim_ascii_ws_start (hdr2.drop 1)) pre then
                 parse_field (trim_ascii_ws_start (hdr2.drop 1)) pre
               else none) with
        | some fr => some fr
        | none =>
          match memchr 59 (trim_ascii_ws_start (hdr2.drop 1)) with
          | none => none
          | some i => fnf_loop pre fuel ((trim_ascii_ws_start (hdr2.drop 1)).drop i) := by
  rcases header with _ | ⟨b, T⟩
  · exact absurd rfl h
  · rfl

theorem opt_cases {α : Type} (o : Option α) : o = none ∨ ∃ a, o = some a := by
  cases o <;> simp

theorem fnf_loop_fuel (pre : List Nat) : ∀ (f1 f2 : Nat) (header : List Nat),
    header.length < f1 → header.length < f2 →
    fnf_loop pre f1 header = fnf_loop pre f2 header := by
  intro f1
  induction f1 with
  | zero => intro f2 header h1 h2; omega
  | succ n ih =>
    intro f2 header h1 h2
    rcases f2 with _ | m
    · omega
    · by_cases hne : header = []
      · subst hne; rfl
      · rw [fnf_loop_succ_ne pre n hne, fnf_loop_succ_ne pre m hne]
        rcases opt_cases (if header.headD 0 ≠ 59 then
            (memchr 59 header).map (fun i => header.drop i) else some header) with
          hstep | ⟨hdr2, hstep⟩
        · simp only [hstep]
        · simp only [hstep]
          rcases opt_cases (if matches_pre (trim_ascii_ws_start (hdr2.drop 1)) pre then
              parse_field (trim_ascii_ws_start (hdr2.drop 1)) pre else none) with
            hpf | ⟨fr, hpf⟩
          · simp only [hpf]
            rcases opt_cases (memchr 59 (trim_ascii_ws_start (hdr2.drop 1))) with
              hmc | ⟨i, hmc⟩
            · simp only [hmc]
            · simp only [hmc]
              have hlt := fnf_next_lt hne (fnf_step_le hstep) i
              exact ih m _ (by omega) (by omega)
          · simp only [hpf]

theorem fnf_loop_shrink (pre : List Nat) : ∀ (fuel : Nat) (header : List Nat)
    (f : ParsedField) (r : List Nat),
    fnf_loop pre fuel header = some (f, r) → r.length < header.length := by
  intro fuel
  induction fuel with
  | zero => intro header f r h; simp [fnf_loop] at h
  | succ n ih =>
    intro header f r h
    by_cases hne : header = []
    · subst hne; simp [fnf_loop] at h
    · rw [fnf_loop_succ_ne pre n hne] at h
      rcases opt_cases (if header.headD 0 ≠ 59 then
          (memchr 59 header).map (fun i => header.drop i) else some header) with
        hstep | ⟨hdr2, hstep⟩
      · simp only [hstep] at h; cases h
      · simp only [hstep] at h
        rcases opt_cases (if matches_pre (trim_ascii_ws_start (hdr2.drop 1)) pre then
            parse_field (trim_ascii_ws_start (hdr2.drop 1)) pre else none) with
          hpf | ⟨fr, hpf⟩
        · simp only [hpf] at h
          rcases opt_cases (memchr 59 (trim_ascii_ws_start (hdr2.drop 1))) with
            hmc | ⟨i, hmc⟩
          · simp only [hmc] at h; cases h
          · simp only [hmc] at h
            have hrec := ih _ _ _ h
            have hlt := fnf_next_lt hne (fnf_step_le hstep) i
            omega
        · simp only [hpf, Option.some.injEq] at h
          subst h
          by_cases hm : matches_pre (trim_ascii_ws_start (hdr2.drop 1)) pre
          · rw [if_pos hm] at hpf
            rw [parse_field_rest hpf]
            exact fnf_next_lt hne (fnf_step_le hstep) pre.length
          · rw [if_neg hm] at hpf; cases hpf

theorem find_next_field_shrink {header pre : List Nat} {f : ParsedField} {r : List Nat}
    (h : find_next_field header pre = some (f, r)) : r.length < header.length := by
  have h1 := fnf_loop_shrink pre (header.length + 1) (trim_ascii_ws_start header) f r h
  have h2 := length_trim_le header
  omega

theorem find_next_field_no_semi {header pre : List Nat} (h : ∀ b ∈ header, b ≠ 59) :
    find_next_field header pre = none := by
  rw [find_next_field]
  cases hC : trim_ascii_ws_start header with
  | nil => rfl
  | cons a Q =>
    have hsub : ∀ b ∈ a :: Q, b ≠ 59 := by
      intro b hb
      exact h b (mem_of_mem_trim (by rw [hC]; exact hb))
    have ha : a ≠ 59 := hsub a (List.mem_cons_self a Q)
    have hm : memchr 59 (a :: Q) = none := memchr_eq_none hsub
    rw [fnf_loop_succ_ne pre header.length (by simp)]
    simp [ha, hm]

theorem find_next_field_semi (pre P T : List Nat) (hP : ∀ b ∈ P, b ≠ 59) :
    find_next_field (P ++ 59 :: T) pre =
      match (if matches_pre (trim_ascii_ws_start T) pre then
               parse_field (trim_ascii_ws_start T) pre
             else none) with
      | some fr => some fr
      | none =>
        match memchr 59 (trim_ascii_ws_start T) with
        | none => none
        | some i => find_next_field ((trim_ascii_ws_start T).drop i) pre := by
  have hws : is_ascii_ws 59 = false := rfl
  have htrim : trim_ascii_ws_start (P ++ 59 :: T) = trim_ascii_ws_start P ++ 59 :: T :=
    trim_append_cons P T 59 hws
  have hQ59 : ∀ b ∈ trim_ascii_ws_start P, b ≠ 59 := fun b hb => hP b (mem_of_mem_trim hb)
  rw [find_next_field, htrim]
  have hne : trim_ascii_ws_start P ++ 59 :: T ≠ [] := by
    cases trim_ascii_ws_start P <;> simp
  rw [fnf_loop_succ_ne pre (P ++ 59 :: T).length hne]
  have hstep : (if (trim_ascii_ws_start P ++ 59 :: T).headD 0 ≠ 59 then
        (memchr 59 (trim_ascii_ws_start P ++ 59 :: T)).map
          (fun i => (trim_ascii_ws_start P ++ 59 :: T).drop i)
      else some (trim_ascii_ws_start P ++ 59 :: T)) = some (59 :: T) := by
    cases hC : trim_ascii_ws_start P with
    | nil => simp
    | cons a Q =>
      have hsub : ∀ b ∈ a :: Q, b ≠ 59 := by rw [← hC]; exact hQ59
      have ha : a ≠ 59 := hsub a (List.mem_cons_self a Q)
      rw [if_pos (by simpa using ha)]
      rw [memchr_append_cons _ _ hsub]
      simp only [Option.map_some', Option.some.injEq]
      exact List.drop_left (a :: Q) (59 :: T)
  simp only [hstep, List.drop_succ_cons, List.drop_zero]
  rcases opt_cases (if matches_pre (trim_ascii_ws_start T) pre then
      parse_field (trim_ascii_ws_start T) pre else none) with hpf | ⟨fr, hpf⟩
  · simp only [hpf]
    rcases opt_cases (memchr 59 (trim_ascii_ws_start T)) with hmc | ⟨i, hmc⟩
    · simp only [hmc]
    · simp only [hmc]
      have hd := memchr_some_drop hmc
      rw [find_next_field]
      have htr2 : trim_ascii_ws_start ((trim_ascii_ws_start T).drop i)
          = (trim_ascii_ws_start T).drop i := by
        rw [hd]
        exact trim_cons_not_ws _ rfl
      rw [htr2]
      apply fnf_loop_fuel
      · have ht := length_trim_le T
        have hdl : ((trim_ascii_ws_start T).drop i).length
            = (trim_ascii_ws_start T).length - i := List.length_drop i _
        simp only [List.length_append, List.length_cons]
        omega
      · omega
  · simp only [hpf]

/-! Lemmas about the extractor loop. -/

theorem ef_loop_step_ext {pre current : List Nat} {fuel : Nat} {reg : Option ParsedField}
    {field : ParsedField} {rest : List Nat}
    (hf : find_next_field current pre = some (field, rest)) (hx : field.is_extended = true) :
    ef_loop pre (fuel + 1) current reg = decode_field field.value := by
  simp [ef_loop, hf, hx]

theorem ef_loop_step_reg {pre current : List Nat} {fuel : Nat} {reg : Option ParsedField}
    {field : ParsedField} {rest : List Nat}
    (hf : find_next_field current pre = some (field, rest)) (hx : field.is_extended = false) :
    ef_loop pre (fuel + 1) current reg
      = ef_loop pre fuel rest (if reg.isNone then some field else reg) := by
  simp [ef_loop, hf, hx]

theorem ef_loop_step_none {pre current : List Nat} {fuel : Nat} {reg : Option ParsedField}
    (hf : find_next_field current pre = none) :
    ef_loop pre (fuel + 1) current reg = reg.bind decodeRegular := by
  simp [ef_loop, hf]

theorem ef_loop_fuel (pre : List Nat) : ∀ (f1 f2 : Nat) (current : List Nat)
    (reg : Option ParsedField),
    current.length < f1 → current.length < f2 →
    ef_loop pre f1 current reg = ef_loop pre f2 current reg := by
  intro f1
  induction f1 with
  | zero => intro f2 c reg h1 h2; omega
  | succ n ih =>
    intro f2 c reg h1 h2
    rcases f2 with _ | m
    · omega
    · rcases opt_cases (find_next_field c pre) with hf | ⟨⟨field, rest⟩, hf⟩
      · rw [ef_loop_step_none hf, ef_loop_step_none hf]
      · by_cases hx : field.is_extended = true
        · rw [ef_loop_step_ext hf hx, ef_loop_step_ext hf hx]
        · have hx' : field.is_extended = false := by simpa using hx
          rw [ef_loop_step_reg hf hx', ef_loop_step_reg hf hx']
          have hs := find_next_field_shrink hf
          exact ih m _ _ (by omega) (by omega)

theorem occs_loop_succ (pre : List Nat) (fuel : Nat) (current : List Nat) :
    occs_loop pre (fuel + 1) current =
      match find_next_field current pre with
      | none => []
      | some (f, rest) => f :: occs_loop pre fuel rest := rfl

theorem ef_loop_first_ext (pre : List Nat) : ∀ (fuel : Nat) (current : List Nat)
    (reg : Option ParsedField) (f : ParsedField),
    current.length < fuel →
    (occs_loop pre fuel current).find? (fun g => g.is_extended) = some f →
    ef_loop pre fuel current reg = decode_field f.value := by
  intro fuel
  induction fuel with
  | zero => intro c reg f h1 h2; omega
  | succ n ih =>
    intro c reg f h1 hocc
    rcases opt_cases (find_next_field c pre) with hf | ⟨⟨field, rest⟩, hf⟩
    · rw [occs_loop_succ] at hocc
      simp [hf] at hocc
    · rw [occs_loop_succ] at hocc
      simp only [hf] at hocc
      by_cases hx : field.is_extended = true
      · rw [List.find?_cons_of_pos _ hx] at hocc
        simp only [Option.some.injEq] at hocc
        subst hocc
        exact ef_loop_step_ext hf hx
      · have hx' : field.is_extended = false := by simpa using hx
        rw [List.find?_cons_of_neg _ (by simp [hx'])] at hocc
        rw [ef_loop_step_reg hf hx']
        have hs := find_next_field_shrink hf
        exact ih _ _ _ (by omega) hocc

theorem ef_loop_no_ext_some (pre : List Nat) : ∀ (fuel : Nat) (current : List Nat)
    (g : ParsedField),
    current.length < fuel →
    (occs_loop pre fuel current).find? (fun x => x.is_extended) = none →
    ef_loop pre fuel current (some g) = decodeRegular g := by
  intro fuel
  induction fuel with
  | zero => intro c g h1 h2; omega
  | succ n ih =>
    intro c g h1 hocc
    rcases opt_cases (find_next_field c pre) with hf | ⟨⟨field, rest⟩, hf⟩
    · rw [ef_loop_step_none hf]
      rfl
    · rw [occs_loop_succ] at hocc
      simp only [hf] at hocc
      by_cases hx : field.is_extended = true
      · rw [List.find?_cons_of_pos _ hx] at hocc
        cases hocc
      · have hx' : field.is_extended = false := by simpa using hx
        rw [List.find?_cons_of_neg _ (by simp [hx'])] at hocc
        rw [ef_loop_step_reg hf hx']
        have hs := find_next_field_shrink hf
        simpa using ih _ _ (by omega) hocc

theorem ef_loop_no_ext_none (pre : List Nat) : ∀ (fuel : Nat) (current : List Nat),
    current.length < fuel →
    (occs_loop pre fuel current).find? (fun x => x.is_extended) = none →
    ef_loop pre fuel current none
      = (occs_loop pre fuel current).head?.bind decodeRegular := by
  intro fuel
  induction fuel with
  | zero => intro c h1 h2; omega
  | succ n ih =>
    intro c h1 hocc
    rcases opt_cases (find_next_field c pre) with hf | ⟨⟨field, rest⟩, hf⟩
    · rw [ef_loop_step_none hf, occs_loop_succ]
      simp [hf]
    · rw [occs_loop_succ] at hocc ⊢
      simp only [hf] at hocc ⊢
      by_cases hx : field.is_extended = true
      · rw [List.find?_cons_of_pos _ hx] at hocc
        cases hocc
      · have hx' : field.is_extended = false := by simpa using hx
        rw [List.find?_cons_of_neg _ (by simp [hx'])] at hocc
        rw [ef_loop_step_reg hf hx']
        have hs := find_next_field_shrink hf
        simp only [List.head?_cons, Option.some_bind]
        simpa using ef_loop_no_ext_some pre n rest field (by omega) hocc

/-! Computation lemmas for schematic header families. -/

theorem parse_value_token (V : List Nat) (hws : ∀ b ∈ V, is_ascii_ws b = false)
    (h59 : ∀ b ∈ V, b ≠ 59) (h34 : V.headD 0 ≠ 34) :
    parse_value V = some (V, false) := by
  have htrim : trim_ascii_ws_start V = V := trim_eq_self hws
  have h32 : ∀ b ∈ V, b ≠ 32 := by
    intro b hb heq
    have := hws b hb
    subst heq
    simp [is_ascii_ws] at this
  have hthen : trim_ascii_ws_then V 34 = none := by
    rw [trim_ascii_ws_then, htrim]
    cases V with
    | nil => rfl
    | cons a T =>
      have ha : a ≠ 34 := by simpa using h34
      simp [ha]
  simp only [parse_value, hthen, htrim]
  rw [memchr2_eq_none (fun b hb => ⟨h59 b hb, h32 b hb⟩)]
  simp [List.take_length]

theorem parse_value_quoted (X C : List Nat) (h34 : ∀ b ∈ X, b ≠ 34)
    (h92 : X = [] ∨ X.getD (X.length - 1) 0 ≠ 92) :
    parse_value (34 :: (X ++ 34 :: C)) = some (X, false) := by
  have hthen : trim_ascii_ws_then (34 :: (X ++ 34 :: C)) 34 = some (X ++ 34 :: C) := by
    rw [trim_ascii_ws_then, trim_cons_not_ws (c := 34) _ rfl]
    simp
  simp only [parse_value, hthen]
  rw [memchr_append_cons X C h34]
  simp only [pv_loop]
  rcases h92 with rfl | hlast
  · simp
  · by_cases hX : X = []
    · subst hX; simp
    · have hpos : 0 < X.length := List.length_pos.mpr hX
      have hcond : ¬(0 < X.length ∧ (X ++ 34 :: C).getD (X.length - 1) 0 = 92) := by
        rintro ⟨hp, hgd⟩
        rw [getD_append_lt (by omega)] at hgd
        exact hlast hgd
      rw [if_neg hcond]
      simp [List.take_left]

theorem parse_field_val_plain (pre rest2 : List Nat) :
    parse_field_val (pre ++ 61 :: rest2) pre
      = (parse_value rest2).map (fun vb => ⟨vb.1, false, vb.2⟩) := by
  have hdrop : (pre ++ 61 :: rest2).drop pre.length = 61 :: rest2 :=
    List.drop_left pre (61 :: rest2)
  have hthen : trim_ascii_ws_then (61 :: rest2) 61 = some rest2 := by
    rw [trim_ascii_ws_then, trim_cons_not_ws (c := 61) _ rfl]
    simp
  simp only [parse_field_val, hdrop, trim_cons_not_ws (c := 61) _ rfl]
  rw [if_neg (by simp)]
  rw [if_neg (by simp)]
  simp only [hthen]
  simp

theorem parse_field_val_ext (pre rest2 : List Nat) :
    parse_field_val (pre ++ 42 :: 61 :: rest2) pre
      = (parse_extended_value rest2).map (fun ev => ⟨ev.value, true, false⟩) := by
  have hdrop : (pre ++ 42 :: 61 :: rest2).drop pre.length = 42 :: 61 :: rest2 :=
    List.drop_left pre (42 :: 61 :: rest2)
  have hthen : trim_ascii_ws_then (61 :: rest2) 61 = some rest2 := by
    rw [trim_ascii_ws_then, trim_cons_not_ws (c := 61) _ rfl]
    simp
  have htr61 : trim_ascii_ws_start (61 :: rest2) = 61 :: rest2 := trim_cons_not_ws _ rfl
  have htr42 : trim_ascii_ws_start (42 :: 61 :: rest2) = 42 :: 61 :: rest2 :=
    trim_cons_not_ws _ rfl
  have hdrop1 : ((42 : Nat) :: 61 :: rest2).drop 1 = 61 :: rest2 := rfl
  simp only [parse_field_val, hdrop, htr42, hdrop1, htr61]
  rw [if_pos (by simp : ((42 : Nat) :: 61 :: rest2 ≠ []
    ∧ ((42 : Nat) :: 61 :: rest2).headD 0 = 42))]
  simp [hthen]

theorem parse_field_plain (pre rest2 : List Nat) {v : List Nat} {esc : Bool}
    (h : parse_value rest2 = some (v, esc)) :
    parse_field (pre ++ 61 :: rest2) pre = some (⟨v, false, esc⟩, 61 :: rest2) := by
  rw [parse_field, parse_field_val_plain, h, List.drop_left]
  rfl

theorem parse_field_plain_none (pre rest2 : List Nat) (h : parse_value rest2 = none) :
    parse_field (pre ++ 61 :: rest2) pre = none := by
  rw [parse_field, parse_field_val_plain, h]
  rfl

theorem parse_field_ext (pre rest2 : List Nat) {ev : ExtendedValue}
    (h : parse_extended_value rest2 = some ev) :
    parse_field (pre ++ 42 :: 61 :: rest2) pre
      = some (⟨ev.value, true, false⟩, 42 :: 61 :: rest2) := by
  rw [parse_field, parse_field_val_ext, h, List.drop_left]
  rfl

/-! Claim theorems. -/

/-- C5 (amended): the unrestricted claim fails (see the counterexample:
a header equal to the bare text name="hi" without a preceding semicolon
yields absent); the property holds for every header of the shape
P ; name="X" in which the prelude P contains no semicolon and the quoted
body X is valid UTF-8 and contains no quote, backslash or semicolon byte:
extracting the Name attribute yields exactly X. -/
theorem extract_from_quoted_name_amended (P X : List Nat)
    (hP : ∀ b ∈ P, b ≠ 59)
    (hX : ∀ b ∈ X, b ≠ 34 ∧ b ≠ 92 ∧ b ≠ 59)
    (hu : utf8Valid X = true) :
    extract_from .Name (P ++ 59 :: (nameBytes ++ 61 :: 34 :: (X ++ 34 :: []))) = some X := by
  have h92 : X = [] ∨ X.getD (X.length - 1) 0 ≠ 92 := by
    by_cases hX0 : X = []
    · exact Or.inl hX0
    · refine Or.inr ?_
      have hlt : X.length - 1 < X.length := by
        have := List.length_pos.mpr hX0
        omega
      exact (hX _ (getD_mem hlt)).2.1
  have hpv : parse_value (34 :: (X ++ 34 :: [])) = some (X, false) :=
    parse_value_quoted X [] (fun b hb => (hX b hb).1) h92
  have hpf : parse_field (nameBytes ++ 61 :: 34 :: (X ++ 34 :: [])) nameBytes
      = some (⟨X, false, false⟩, 61 :: 34 :: (X ++ 34 :: [])) :=
    parse_field_plain nameBytes _ hpv
  have htrT : trim_ascii_ws_start (nameBytes ++ 61 :: 34 :: (X ++ 34 :: []))
      = nameBytes ++ 61 :: 34 :: (X ++ 34 :: []) := by
    have h : nameBytes ++ 61 :: 34 :: (X ++ 34 :: [])
        = 110 :: (97 :: 109 :: 101 :: (61 :: 34 :: (X ++ 34 :: []))) := by simp [nameBytes]
    rw [h]
    exact trim_cons_not_ws _ rfl
  have hmatch : matches_pre (nameBytes ++ 61 :: 34 :: (X ++ 34 :: [])) nameBytes = true :=
    matches_pre_append _ _
  have hfind : find_next_field (P ++ 59 :: (nameBytes ++ 61 :: 34 :: (X ++ 34 :: []))) nameBytes
      = some (⟨X, false, false⟩, 61 :: 34 :: (X ++ 34 :: [])) := by
    rw [find_next_field_semi _ _ _ hP, htrT, if_pos hmatch, hpf]
  have hfind2 : find_next_field (61 :: 34 :: (X ++ 34 :: [])) nameBytes = none := by
    apply find_next_field_no_semi
    intro b hb
    simp only [List.mem_cons, List.mem_append] at hb
    rcases hb with rfl | rfl | hb | hb
    · decide
    · decide
    · exact (hX b hb).2.2
    · simp at hb
      subst hb
      decide
  have hshrink := find_next_field_shrink hfind
  simp only [extract_from, attrPre]
  rw [ef_loop_step_reg hfind rfl]
  rw [ef_loop_fuel nameBytes _ ((61 :: 34 :: (X ++ 34 :: [])).length + 1) _ _
    (by omega) (by omega)]
  rw [ef_loop_step_none hfind2]
  simp [decodeRegular, hu]

theorem matches_pre_cons_ne {a b : Nat} (l r : List Nat)
    (h : to_ascii_lower a ≠ to_ascii_lower b) : matches_pre (a :: l) (b :: r) = false := by
  simp only [matches_pre, List.length_cons, List.take_succ_cons, List.zip_cons_cons,
    List.all_cons]
  simp [h]

theorem pev_generic (cs V : List Nat)
    (htrc : trim_ascii_ws_start cs = cs)
    (hcs39 : ∀ b ∈ cs, b ≠ 39) (hcsu : utf8Valid cs = true)
    (h59 : ∀ b ∈ V, b ≠ 59) (h32 : ∀ b ∈ V, b ≠ 32) :
    parse_extended_value (cs ++ 39 :: 39 :: V) = some ⟨cs, none, V⟩ := by
  have h1 : trim_ascii_ws_start (cs ++ 39 :: 39 :: V) = cs ++ 39 :: 39 :: V := by
    rw [trim_append_cons cs (39 :: V) 39 rfl, htrc]
  have h2 : memchr 39 (cs ++ 39 :: 39 :: V) = some cs.length :=
    memchr_append_cons cs (39 :: V) hcs39
  have h3 : (cs ++ 39 :: 39 :: V).take cs.length = cs := List.take_left cs _
  have h4 : (cs ++ 39 :: 39 :: V).drop (cs.length + 1) = 39 :: V := by
    have h : (cs ++ 39 :: 39 :: V).drop (cs.length + 1) = (39 :: 39 :: V).drop 1 :=
      List.drop_append 1
    simpa using h
  have h5 : memchr 39 (39 :: V) = some 0 := by simp [memchr]
  have h6 : (cs ++ 39 :: 39 :: V).drop (cs.length + 1 + 0 + 1) = V := by
    have heq : cs.length + 1 + 0 + 1 = cs.length + 2 := by omega
    rw [heq]
    have h : (cs ++ 39 :: 39 :: V).drop (cs.length + 2) = (39 :: 39 :: V).drop 2 :=
      List.drop_append 2
    simpa using h
  have h7 : memchr 59 V = none := memchr_eq_none h59
  have h8 : memchr 32 V = none := memchr_eq_none h32
  simp only [parse_extended_value, h1, h2, h3, hcsu, h4, h5, h6, h7, h8]
  simp [List.take_length]
  refine ⟨rfl, ?_⟩
  rw [h8]

/-- C8: for every header consisting of a semicolon-free prelude followed
by a single filename parameter (in plain unquoted form or in extended
form) and no name parameter, extracting Name yields absent and extracting
FileName yields the present decoded file name; in particular the trailing
name inside the token filename never matches the Name attribute, because
prefix matching is anchored at the position right after a semicolon plus
optional whitespace. -/
theorem extract_from_filename_only (P V : List Nat)
    (hP : ∀ b ∈ P, b ≠ 59)
    (hV : ∀ b ∈ V, is_ascii_ws b = false ∧ b ≠ 59 ∧ b ≠ 34 ∧ b ≠ 39 ∧ b ≠ 37)
    (hu : utf8Valid V = true) :
    (extract_from .Name (P ++ 59 :: (fileNameBytes ++ 61 :: V)) = none
      ∧ extract_from .FileName (P ++ 59 :: (fileNameBytes ++ 61 :: V)) = some V)
    ∧ (extract_from .Name (P ++ 59 :: (fileNameBytes ++ 42 :: 61 ::
          ([117, 116, 102, 45, 56] ++ 39 :: 39 :: V))) = none
      ∧ extract_from .FileName (P ++ 59 :: (fileNameBytes ++ 42 :: 61 ::
          ([117, 116, 102, 45, 56] ++ 39 :: 39 :: V))) = some V) := by
  have h59V : ∀ b ∈ V, b ≠ 59 := fun b hb => (hV b hb).2.1
  have h32V : ∀ b ∈ V, b ≠ 32 := by
    intro b hb heq
    have := (hV b hb).1
    subst heq
    simp [is_ascii_ws] at this
  have hwsV : ∀ b ∈ V, is_ascii_ws b = false := fun b hb => (hV b hb).1
  have hfnb59 : ∀ b ∈ fileNameBytes, b ≠ (59 : Nat) := by decide
  have hcs59 : ∀ b ∈ [117, 116, 102, 45, 56], b ≠ (59 : Nat) := by decide
  have h34head : V.headD 0 ≠ 34 := by
    cases V with
    | nil => decide
    | cons a T => simpa using (hV a (List.mem_cons_self a T)).2.2.1
  have h37 : (37 : Nat) ∉ V := fun hc => (hV 37 hc).2.2.2.2 rfl
  have htrT1 : trim_ascii_ws_start (fileNameBytes ++ 61 :: V) = fileNameBytes ++ 61 :: V := by
    have h : fileNameBytes ++ 61 :: V
        = 102 :: ([105, 108, 101, 110, 97, 109, 101] ++ 61 :: V) := by simp [fileNameBytes]
    rw [h]
    exact trim_cons_not_ws _ rfl
  have hmm1 : matches_pre (fileNameBytes ++ 61 :: V) nameBytes = false := by
    have h : fileNameBytes ++ 61 :: V
        = 102 :: ([105, 108, 101, 110, 97, 109, 101] ++ 61 :: V) := by simp [fileNameBytes]
    have h2 : nameBytes = 110 :: [97, 109, 101] := rfl
    rw [h, h2]
    exact matches_pre_cons_ne _ _ (by decide)
  have hmc1 : memchr 59 (fileNameBytes ++ 61 :: V) = none := by
    apply memchr_eq_none
    intro b hb
    rcases List.mem_append.mp hb with hb | hb
    · exact hfnb59 b hb
    · rcases List.mem_cons.mp hb with rfl | hb
      · decide
      · exact h59V b hb
  have hfindN1 : find_next_field (P ++ 59 :: (fileNameBytes ++ 61 :: V)) nameBytes = none := by
    rw [find_next_field_semi _ _ _ hP, htrT1]
    simp [hmm1, hmc1]
  have hname1 : extract_from .Name (P ++ 59 :: (fileNameBytes ++ 61 :: V)) = none := by
    simp only [extract_from, attrPre]
    rw [ef_loop_step_none hfindN1]
    rfl
  have hpv : parse_value V = some (V, false) := parse_value_token V hwsV h59V h34head
  have hpfF1 : parse_field (fileNameBytes ++ 61 :: V) fileNameBytes
      = some (⟨V, false, false⟩, 61 :: V) := parse_field_plain fileNameBytes V hpv
  have hmmF1 : matches_pre (fileNameBytes ++ 61 :: V) fileNameBytes = true :=
    matches_pre_append _ _
  have hfindF1 : find_next_field (P ++ 59 :: (fileNameBytes ++ 61 :: V)) fileNameBytes
      = some (⟨V, false, false⟩, 61 :: V) := by
    rw [find_next_field_semi _ _ _ hP, htrT1, if_pos hmmF1, hpfF1]
  have hfindF1b : find_next_field (61 :: V) fileNameBytes = none := by
    apply find_next_field_no_semi
    intro b hb
    rcases List.mem_cons.mp hb with rfl | hb
    · decide
    · exact h59V b hb
  have hfile1 : extract_from .FileName (P ++ 59 :: (fileNameBytes ++ 61 :: V)) = some V := by
    simp only [extract_from, attrPre]
    rw [ef_loop_step_reg hfindF1 rfl]
    rw [ef_loop_fuel fileNameBytes _ ((61 :: V).length + 1) _ _
      (by have := find_next_field_shrink hfindF1; omega) (by omega)]
    rw [ef_loop_step_none hfindF1b]
    simp [decodeRegular, hu]
  have htrT2 : trim_ascii_ws_start (fileNameBytes ++ 42 :: 61 ::
        ([117, 116, 102, 45, 56] ++ 39 :: 39 :: V))
      = fileNameBytes ++ 42 :: 61 :: ([117, 116, 102, 45, 56] ++ 39 :: 39 :: V) := by
    have h : fileNameBytes ++ 42 :: 61 :: ([117, 116, 102, 45, 56] ++ 39 :: 39 :: V)
        = 102 :: ([105, 108, 101, 110, 97, 109, 101]
            ++ 42 :: 61 :: ([117, 116, 102, 45, 56] ++ 39 :: 39 :: V)) := by
      simp [fileNameBytes]
    rw [h]
    exact trim_cons_not_ws _ rfl
  have hmm2 : matches_pre (fileNameBytes ++ 42 :: 61 ::
      ([117, 116, 102, 45, 56] ++ 39 :: 39 :: V)) nameBytes = false := by
    have h : fileNameBytes ++ 42 :: 61 :: ([117, 116, 102, 45, 56] ++ 39 :: 39 :: V)
        = 102 :: ([105, 108, 101, 110, 97, 109, 101]
            ++ 42 :: 61 :: ([117, 116, 102, 45, 56] ++ 39 :: 39 :: V)) := by
      simp [fileNameBytes]
    have h2 : nameBytes = 110 :: [97, 109, 101] := rfl
    rw [h, h2]
    exact matches_pre_cons_ne _ _ (by decide)
  have hmc2 : memchr 59 (fileNameBytes ++ 42 :: 61 ::
      ([117, 116, 102, 45, 56] ++ 39 :: 39 :: V)) = none := by
    apply memchr_eq_none
    intro b hb
    rcases List.mem_append.mp hb with hb | hb
    · exact hfnb59 b hb
    · rcases List.mem_cons.mp hb with rfl | hb
      · decide
      · rcases List.mem_cons.mp hb with rfl | hb
        · decide
        · rcases List.mem_append.mp hb with hb | hb
          · exact hcs59 b hb
          · rcases List.mem_cons.mp hb with rfl | hb
            · decide
            · rcases List.mem_cons.mp hb with rfl | hb
              · decide
              · exact h59V b hb
  have hfindN2 : find_next_field (P ++ 59 :: (fileNameBytes ++ 42 :: 61 ::
      ([117, 116, 102, 45, 56] ++ 39 :: 39 :: V))) nameBytes = none := by
    rw [find_next_field_semi _ _ _ hP, htrT2, hmm2]
    simp only [Bool.false_eq_true, if_false, hmc2]
  have hname2 : extract_from .Name (P ++ 59 :: (fileNameBytes ++ 42 :: 61 ::
      ([117, 116, 102, 45, 56] ++ 39 :: 39 :: V))) = none := by
    simp only [extract_from, attrPre]
    rw [ef_loop_step_none hfindN2]
    rfl
  have hpev : parse_extended_value ([117, 116, 102, 45, 56] ++ 39 :: 39 :: V)
      = some ⟨[117, 116, 102, 45, 56], none, V⟩ :=
    pev_generic _ V (by decide) (by decide) (by decide) h59V h32V
  have hpfF2 : parse_field (fileNameBytes ++ 42 :: 61 ::
        ([117, 116, 102, 45, 56] ++ 39 :: 39 :: V)) fileNameBytes
      = some (⟨V, true, false⟩, 42 :: 61 :: ([117, 116, 102, 45, 56] ++ 39 :: 39 :: V)) := by
    simpa using parse_field_ext fileNameBytes ([117, 116, 102, 45, 56] ++ 39 :: 39 :: V) hpev
  have hmmF2 : matches_pre (fileNameBytes ++ 42 :: 61 ::
      ([117, 116, 102, 45, 56] ++ 39 :: 39 :: V)) fileNameBytes = true :=
    matches_pre_append _ _
  have hfindF2 : find_next_field (P ++ 59 :: (fileNameBytes ++ 42 :: 61 ::
        ([117, 116, 102, 45, 56] ++ 39 :: 39 :: V))) fileNameBytes
      = some (⟨V, true, false⟩, 42 :: 61 :: ([117, 116, 102, 45, 56] ++ 39 :: 39 :: V)) := by
    rw [find_next_field_semi _ _ _ hP, htrT2, if_pos hmmF2, hpfF2]
  have hfile2 : extract_from .FileName (P ++ 59 :: (fileNameBytes ++ 42 :: 61 ::
      ([117, 116, 102, 45, 56] ++ 39 :: 39 :: V))) = some V := by
    simp only [extract_from, attrPre]
    rw [ef_loop_step_ext hfindF2 rfl]
    simp [decode_field, percent_decode, h37, hu]
  exact ⟨⟨hname1, hfile1⟩, ⟨hname2, hfile2⟩⟩

theorem parse_value_noclose (R : List Nat) (h : ∀ b ∈ R, b ≠ 34) :
    parse_value (34 :: R) = none := by
  have hthen : trim_ascii_ws_then (34 :: R) 34 = some R := by
    rw [trim_ascii_ws_then, trim_cons_not_ws (c := 34) _ rfl]
    simp
  simp only [parse_value, hthen, memchr_eq_none h]

/-- C2 (amended): a failure to PARSE a located occurrence, such as a
quoted value with no closing quote, degrades only that occurrence and
scanning continues to a later occurrence of the same attribute (first
conjunct, a schematic family: the first name occurrence has an unclosed
quote, and extraction returns the second occurrence).  However, contrary
to the claim, a failure to DECODE the winning occurrence is not skipped:
when the first extended-form occurrence is located but its value fails
percent-decoding or UTF-8 conversion, the whole extraction returns absent
even when a usable occurrence exists elsewhere (second conjunct, and the
counterexample). -/
theorem extract_from_occurrence_failure_amended :
    (∀ P A B : List Nat, (∀ b ∈ P, b ≠ 59) →
      (∀ b ∈ A, b ≠ 34 ∧ b ≠ 59) →
      (∀ b ∈ B, is_ascii_ws b = false ∧ b ≠ 59 ∧ b ≠ 34) →
      utf8Valid B = true →
      extract_from .Name (P ++ 59 :: (nameBytes ++ 61 :: 34 ::
        (A ++ 59 :: (nameBytes ++ 61 :: B)))) = some B)
    ∧ (∀ (attr : ContentDispositionAttr) (header : List Nat) (f : ParsedField),
      (occurrences header (attrPre attr)).find? (fun g => g.is_extended) = some f →
      decode_field f.value = none →
      extract_from attr header = none) := by
  constructor
  · intro P A B hP hA hB huB
    have h59B : ∀ b ∈ B, b ≠ 59 := fun b hb => (hB b hb).2.1
    have h34B : ∀ b ∈ B, b ≠ 34 := fun b hb => (hB b hb).2.2
    have hwsB : ∀ b ∈ B, is_ascii_ws b = false := fun b hb => (hB b hb).1
    have h34head : B.headD 0 ≠ 34 := by
      cases B with
      | nil => decide
      | cons a T => simpa using (hB a (List.mem_cons_self a T)).2.2
    have hnm34 : ∀ b ∈ nameBytes, b ≠ (34 : Nat) := by decide
    have hnm59 : ∀ b ∈ nameBytes, b ≠ (59 : Nat) := by decide
    have hpvfail : parse_value (34 :: (A ++ 59 :: (nameBytes ++ 61 :: B))) = none := by
      apply parse_value_noclose
      intro b hb
      rcases List.mem_append.mp hb with hb | hb
      · exact (hA b hb).1
      · rcases List.mem_cons.mp hb with rfl | hb
        · decide
        · rcases List.mem_append.mp hb with hb | hb
          · exact hnm34 b hb
          · rcases List.mem_cons.mp hb with rfl | hb
            · decide
            · exact h34B b hb
    have hpffail : parse_field (nameBytes ++ 61 :: 34 ::
        (A ++ 59 :: (nameBytes ++ 61 :: B))) nameBytes = none :=
      parse_field_plain_none nameBytes _ hpvfail
    have htrT : trim_ascii_ws_start (nameBytes ++ 61 :: 34 ::
          (A ++ 59 :: (nameBytes ++ 61 :: B)))
        = nameBytes ++ 61 :: 34 :: (A ++ 59 :: (nameBytes ++ 61 :: B)) := by
      have h : nameBytes ++ 61 :: 34 :: (A ++ 59 :: (nameBytes ++ 61 :: B))
          = 110 :: ([97, 109, 101] ++ 61 :: 34 :: (A ++ 59 :: (nameBytes ++ 61 :: B))) := by
        simp [nameBytes]
      rw [h]
      exact trim_cons_not_ws _ rfl
    have hmm : matches_pre (nameBytes ++ 61 :: 34 ::
        (A ++ 59 :: (nameBytes ++ 61 :: B))) nameBytes = true := matches_pre_append _ _
    have hTsplit : nameBytes ++ 61 :: 34 :: (A ++ 59 :: (nameBytes ++ 61 :: B))
        = (nameBytes ++ 61 :: 34 :: A) ++ 59 :: (nameBytes ++ 61 :: B) := by
      simp
    have hmem : memchr 59 (nameBytes ++ 61 :: 34 :: (A ++ 59 :: (nameBytes ++ 61 :: B)))
        = some (nameBytes ++ 61 :: 34 :: A).length := by
      rw [hTsplit]
      apply memchr_append_cons
      intro b hb
      rcases List.mem_append.mp hb with hb | hb
      · exact hnm59 b hb
      · rcases List.mem_cons.mp hb with rfl | hb
        · decide
        · rcases List.mem_cons.mp hb with rfl | hb
          · decide
          · exact (hA b hb).2
    have hdropsplit : (nameBytes ++ 61 :: 34 :: (A ++ 59 :: (nameBytes ++ 61 :: B))).drop
          (nameBytes ++ 61 :: 34 :: A).length
        = 59 :: (nameBytes ++ 61 :: B) := by
      rw [hTsplit]
      exact List.drop_left _ _
    have hpv2 : parse_value B = some (B, false) := parse_value_token B hwsB h59B h34head
    have hpf2 : parse_field (nameBytes ++ 61 :: B) nameBytes
        = some (⟨B, false, false⟩, 61 :: B) := parse_field_plain nameBytes B hpv2
    have htrR2 : trim_ascii_ws_start (nameBytes ++ 61 :: B) = nameBytes ++ 61 :: B := by
      have h : nameBytes ++ 61 :: B = 110 :: ([97, 109, 101] ++ 61 :: B) := by
        simp [nameBytes]
      rw [h]
      exact trim_cons_not_ws _ rfl
    have hmm2 : matches_pre (nameBytes ++ 61 :: B) nameBytes = true := matches_pre_append _ _
    have hfind2 : find_next_field (59 :: (nameBytes ++ 61 :: B)) nameBytes
        = some (⟨B, false, false⟩, 61 :: B) := by
      have h := find_next_field_semi nameBytes [] (nameBytes ++ 61 :: B) (by simp)
      simp only [List.nil_append] at h
      rw [h, htrR2, if_pos hmm2, hpf2]
    have hfind : find_next_field (P ++ 59 :: (nameBytes ++ 61 :: 34 ::
          (A ++ 59 :: (nameBytes ++ 61 :: B)))) nameBytes
        = some (⟨B, false, false⟩, 61 :: B) := by
      rw [find_next_field_semi _ _ _ hP, htrT]
      rw [if_pos hmm, hpffail]
      simp only [hmem, hdropsplit, hfind2]
    have hfind3 : find_next_field (61 :: B) nameBytes = none := by
      apply find_next_field_no_semi
      intro b hb
      rcases List.mem_cons.mp hb with rfl | hb
      · decide
      · exact h59B b hb
    simp only [extract_from, attrPre]
    rw [ef_loop_step_reg hfind rfl]
    rw [ef_loop_fuel nameBytes _ ((61 :: B).length + 1) _ _
      (by have := find_next_field_shrink hfind; omega) (by omega)]
    rw [ef_loop_step_none hfind3]
    simp [decodeRegular, huB]
  · intro attr header f hocc hdec
    rw [occurrences] at hocc
    have h := ef_loop_first_ext (attrPre attr) (header.length + 1) header none f
      (by omega) hocc
    rw [extract_from, h, hdec]

theorem pv_loop_end {rest : List Nat} {k : Nat} {esc : Bool} (fuel : Nat)
    (hk : ¬(0 < k ∧ rest.getD (k - 1) 0 = 92)) :
    pv_loop (fuel + 1) rest k esc = some (k, esc) := by
  simp only [pv_loop, if_neg hk]

theorem pv_loop_skip {rest : List Nat} {k m : Nat} {esc : Bool} (fuel : Nat)
    (hk : 0 < k ∧ rest.getD (k - 1) 0 = 92)
    (hm : memchr 34 (rest.drop (k + 1)) = some m) :
    pv_loop (fuel + 1) rest k esc = pv_loop fuel rest (k + 1 + m) true := by
  simp only [pv_loop, if_pos hk, hm]

theorem pv_loop_skip_none {rest : List Nat} {k : Nat} {esc : Bool} (fuel : Nat)
    (hk : 0 < k ∧ rest.getD (k - 1) 0 = 92)
    (hm : memchr 34 (rest.drop (k + 1)) = none) :
    pv_loop (fuel + 1) rest k esc = none := by
  simp only [pv_loop, if_pos hk, hm]

/-- C4 (amended): in parse_value on a quoted input, a quote byte whose
immediately preceding byte is a backslash is treated as escaped and is not
a terminator, regardless of the length of the backslash run before it
(even-length runs included, contrary to the claim, which the
counterexample shows); a quote whose immediately preceding byte is not a
backslash, or which opens the body, terminates the value; was_escaped is
set exactly when at least one escaped quote was consumed; and the function
returns None when every quote in the input is immediately preceded by a
backslash or no quote exists at all. -/
theorem parse_value_escape_amended :
    (∀ (A B : List Nat) (d : Nat), (∀ b ∈ A, b ≠ 34) → (∀ b ∈ B, b ≠ 34) →
      d ≠ 34 → d ≠ 92 →
      parse_value (34 :: (A ++ 92 :: 34 :: (B ++ [d, 34])))
        = some (A ++ 92 :: 34 :: (B ++ [d]), true))
    ∧ (∀ (A C : List Nat) (d : Nat), (∀ b ∈ A, b ≠ 34) → d ≠ 34 → d ≠ 92 →
      parse_value (34 :: (A ++ [d, 34] ++ C)) = some (A ++ [d], false))
    ∧ (∀ C : List Nat, parse_value (34 :: 34 :: C) = some ([], false))
    ∧ (∀ A : List Nat, (∀ b ∈ A, b ≠ 34) → parse_value (34 :: A) = none)
    ∧ (∀ A : List Nat, (∀ b ∈ A, b ≠ 34) →
      parse_value (34 :: (A ++ [92, 34])) = none) := by
  refine ⟨?_, ?_, ?_, ?_, ?_⟩
  · intro A B d hA hB h34 h92
    have hthen : trim_ascii_ws_then (34 :: (A ++ 92 :: 34 :: (B ++ [d, 34]))) 34
        = some (A ++ 92 :: 34 :: (B ++ [d, 34])) := by
      rw [trim_ascii_ws_then, trim_cons_not_ws (c := 34) _ rfl]
      simp
    have hsplit1 : A ++ 92 :: 34 :: (B ++ [d, 34])
        = (A ++ [92]) ++ 34 :: (B ++ [d, 34]) := by simp
    have hmem1 : memchr 34 (A ++ 92 :: 34 :: (B ++ [d, 34])) = some (A ++ [92]).length := by
      rw [hsplit1]
      apply memchr_append_cons
      intro b hb
      rcases List.mem_append.mp hb with hb | hb
      · exact hA b hb
      · simp at hb; subst hb; decide
    have hk1 : 0 < (A ++ [92]).length
        ∧ (A ++ 92 :: 34 :: (B ++ [d, 34])).getD ((A ++ [92]).length - 1) 0 = 92 := by
      constructor
      · simp
      · have hlen : (A ++ [92]).length - 1 = A.length := by simp
        rw [hlen]
        exact getD_concat A 92 _
    have hlen2 : (A ++ [92]).length + 1 = (A ++ [92, 34]).length := by simp
    have hdropR : (A ++ 92 :: 34 :: (B ++ [d, 34])).drop ((A ++ [92, 34]).length)
        = B ++ [d, 34] := by
      have h : A ++ 92 :: 34 :: (B ++ [d, 34]) = (A ++ [92, 34]) ++ (B ++ [d, 34]) := by
        simp
      rw [h, List.drop_left]
    have hm1 : memchr 34 ((A ++ 92 :: 34 :: (B ++ [d, 34])).drop ((A ++ [92]).length + 1))
        = some (B ++ [d]).length := by
      rw [hlen2, hdropR]
      have h : B ++ [d, 34] = (B ++ [d]) ++ 34 :: [] := by simp
      rw [h]
      apply memchr_append_cons
      intro b hb
      rcases List.mem_append.mp hb with hb | hb
      · exact hB b hb
      · simp at hb; subst hb; exact h34
    have hk2 : ¬(0 < (A ++ [92]).length + 1 + (B ++ [d]).length
        ∧ (A ++ 92 :: 34 :: (B ++ [d, 34])).getD
            ((A ++ [92]).length + 1 + (B ++ [d]).length - 1) 0 = 92) := by
      rintro ⟨hp, hgd⟩
      have hidx : (A ++ [92]).length + 1 + (B ++ [d]).length - 1
          = (A ++ 92 :: 34 :: B).length := by
        simp
        omega
      rw [hidx] at hgd
      have hsp : A ++ 92 :: 34 :: (B ++ [d, 34]) = (A ++ 92 :: 34 :: B) ++ d :: [34] := by
        simp
      rw [hsp, getD_concat] at hgd
      exact h92 hgd
    have hn : (A ++ 92 :: 34 :: (B ++ [d, 34])).length = (A.length + B.length + 3) + 1 := by
      simp
      omega
    simp only [parse_value, hthen, hmem1]
    rw [pv_loop_skip _ hk1 hm1, hn, pv_loop_end _ hk2]
    have hk1eq : (A ++ [92]).length + 1 + (B ++ [d]).length
        = (A ++ 92 :: 34 :: (B ++ [d])).length := by
      simp
      omega
    have htake : (A ++ 92 :: 34 :: (B ++ [d, 34])).take
        ((A ++ 92 :: 34 :: (B ++ [d])).length) = A ++ 92 :: 34 :: (B ++ [d]) := by
      have h : A ++ 92 :: 34 :: (B ++ [d, 34])
          = (A ++ 92 :: 34 :: (B ++ [d])) ++ 34 :: [] := by simp
      rw [h, List.take_left]
    simp only [Option.map_some', hk1eq, htake]
  · intro A C d hA h34 h92
    have hX : ∀ b ∈ A ++ [d], b ≠ 34 := by
      intro b hb
      rcases List.mem_append.mp hb with hb | hb
      · exact hA b hb
      · simp at hb; subst hb; exact h34
    have hlast : (A ++ [d]) = [] ∨ (A ++ [d]).getD ((A ++ [d]).length - 1) 0 ≠ 92 := by
      refine Or.inr ?_
      have hlen : (A ++ [d]).length - 1 = A.length := by simp
      rw [hlen, getD_concat]
      exact h92
    have h := parse_value_quoted (A ++ [d]) C hX hlast
    have heq : A ++ [d, 34] ++ C = (A ++ [d]) ++ 34 :: C := by simp
    rw [heq]
    exact h
  · intro C
    have h := parse_value_quoted [] C (by simp) (Or.inl rfl)
    simpa using h
  · intro A hA
    exact parse_value_noclose A hA
  · intro A hA
    have hthen : trim_ascii_ws_then (34 :: (A ++ [92, 34])) 34 = some (A ++ [92, 34]) := by
      rw [trim_ascii_ws_then, trim_cons_not_ws (c := 34) _ rfl]
      simp
    have hsplit : A ++ [92, 34] = (A ++ [92]) ++ 34 :: [] := by simp
    have hmem : memchr 34 (A ++ [92, 34]) = some (A ++ [92]).length := by
      rw [hsplit]
      apply memchr_append_cons
      intro b hb
      rcases List.mem_append.mp hb with hb | hb
      · exact hA b hb
      · simp at hb; subst hb; decide
    have hk : 0 < (A ++ [92]).length
        ∧ (A ++ [92, 34]).getD ((A ++ [92]).length - 1) 0 = 92 := by
      constructor
      · simp
      · have hlen : (A ++ [92]).length - 1 = A.length := by simp
        rw [hlen]
        exact getD_concat A 92 _
    have hm : memchr 34 ((A ++ [92, 34]).drop ((A ++ [92]).length + 1)) = none := by
      have hdrop : (A ++ [92, 34]).drop ((A ++ [92]).length + 1) = [] := by
        apply List.drop_eq_nil_of_le
        simp
      rw [hdrop]
      rfl
    simp only [parse_value, hthen, hmem]
    rw [pv_loop_skip_none _ hk hm]
    rfl

/-- C4 (counterexample): on the quoted body consisting of the letter a,
two backslashes, a quote, the letter x and the closing quote, the code
treats the quote preceded by the even-length backslash run as escaped and
keeps scanning, producing the longer escaped value, not the value the
claim predicts (terminate at the even-run quote with no escape consumed). -/
theorem parse_value_even_backslash_cex :
    parse_value [34, 97, 92, 92, 34, 120, 34] = some ([97, 92, 92, 34, 120], true)
    ∧ parse_value [34, 97, 92, 92, 34, 120, 34] ≠ some ([97, 92, 92], false) := by
  exact ⟨by decide, by decide⟩

/-- C4 (witness): the amended theorem applied at concrete inputs: an
escaped quote inside the body is skipped, and a quote preceded by a
non-backslash byte terminates. -/
theorem parse_value_escape_amended_witness :
    parse_value (34 :: ([97] ++ 92 :: 34 :: ([] ++ [120, 34])))
      = some ([97] ++ 92 :: 34 :: ([] ++ [120]), true)
    ∧ parse_value (34 :: ([97] ++ [98, 34] ++ [99])) = some ([97] ++ [98], false) :=
  ⟨parse_value_escape_amended.1 [97] [] 120 (by decide) (by decide) (by decide) (by decide),
   parse_value_escape_amended.2.1 [97] [99] 98 (by decide) (by decide) (by decide)⟩

/-- C1: whenever the scan sequence of occurrences of the requested
attribute contains an extended-form occurrence, the result of extract_from
is the decoded value of the FIRST extended-form occurrence in scan order,
returned immediately; no regular-form occurrence, before or after it, ever
influences the result. -/
theorem extract_from_first_extended_wins (attr : ContentDispositionAttr)
    (header : List Nat) (f : ParsedField)
    (h : (occurrences header (attrPre attr)).find? (fun g => g.is_extended) = some f) :
    extract_from attr header = decode_field f.value := by
  rw [occurrences] at h
  have hh := ef_loop_first_ext (attrPre attr) (header.length + 1) header none f
    (by omega) h
  rw [extract_from, hh]

/-- C1 (witness): on the header x; name=a; name*=utf-8(q)(q)b%20c the first
extended occurrence carries the percent-encoded value, the theorem applies,
and the extraction indeed decodes it (never the regular value a). -/
theorem extract_from_first_extended_wins_witness :
    (occurrences [120, 59, 32, 110, 97, 109, 101, 61, 97, 59, 32, 110, 97, 109, 101,
        42, 61, 117, 116, 102, 45, 56, 39, 39, 98, 37, 50, 48, 99]
      (attrPre .Name)).find? (fun g => g.is_extended)
      = some ⟨[98, 37, 50, 48, 99], true, false⟩
    ∧ extract_from .Name [120, 59, 32, 110, 97, 109, 101, 61, 97, 59, 32, 110, 97, 109,
        101, 42, 61, 117, 116, 102, 45, 56, 39, 39, 98, 37, 50, 48, 99]
      = decode_field [98, 37, 50, 48, 99]
    ∧ extract_from .Name [120, 59, 32, 110, 97, 109, 101, 61, 97, 59, 32, 110, 97, 109,
        101, 42, 61, 117, 116, 102, 45, 56, 39, 39, 98, 37, 50, 48, 99]
      = some [98, 32, 99] := by
  refine ⟨by decide, ?_, by decide⟩
  exact extract_from_first_extended_wins .Name _ ⟨[98, 37, 50, 48, 99], true, false⟩
    (by decide)

/-- C6: when no extended-form occurrence of the attribute exists in the
header, extract_from returns the decoded value of the first (leftmost)
regular-form occurrence in scan order; every later duplicate is ignored,
since the result is a function of the head of the occurrence list alone. -/
theorem extract_from_first_regular_wins (attr : ContentDispositionAttr)
    (header : List Nat)
    (h : (occurrences header (attrPre attr)).find? (fun g => g.is_extended) = none) :
    extract_from attr header
      = (occurrences header (attrPre attr)).head?.bind decodeRegular := by
  rw [occurrences] at h ⊢
  have hh := ef_loop_no_ext_none (attrPre attr) (header.length + 1) header (by omega) h
  rw [extract_from, hh]

/-- C6 (witness): on the header x; name=a; name=b there is no extended
occurrence, the theorem applies, and the extraction returns the first
regular value a, ignoring the later duplicate b. -/
theorem extract_from_first_regular_wins_witness :
    (occurrences [120, 59, 32, 110, 97, 109, 101, 61, 97, 59, 32, 110, 97, 109, 101,
        61, 98] (attrPre .Name)).find? (fun g => g.is_extended) = none
    ∧ extract_from .Name [120, 59, 32, 110, 97, 109, 101, 61, 97, 59, 32, 110, 97,
        109, 101, 61, 98]
      = (occurrences [120, 59, 32, 110, 97, 109, 101, 61, 97, 59, 32, 110, 97, 109,
          101, 61, 98] (attrPre .Name)).head?.bind decodeRegular
    ∧ extract_from .Name [120, 59, 32, 110, 97, 109, 101, 61, 97, 59, 32, 110, 97,
        109, 101, 61, 98] = some [97] := by
  refine ⟨by decide, ?_, by decide⟩
  exact extract_from_first_regular_wins .Name _ (by decide)

theorem occs_loop_le (pre : List Nat) : ∀ (fuel : Nat) (current : List Nat),
    (occs_loop pre fuel current).length ≤ current.length := by
  intro fuel
  induction fuel with
  | zero => intro c; simp [occs_loop]
  | succ n ih =>
    intro c
    rw [occs_loop_succ]
    rcases opt_cases (find_next_field c pre) with hf | ⟨⟨f, rest⟩, hf⟩
    · simp [hf]
    · simp only [hf]
      have h1 := find_next_field_shrink hf
      have h2 := ih rest
      simp only [List.length_cons]
      omega

/-- C9: every successful step of the field locator strictly shrinks the
unconsumed remainder of the header, so the scanning loops in extract_from
terminate, and the number of occurrences visited is bounded by the header
length. -/
theorem find_next_field_terminates (header pre : List Nat) :
    (∀ (f : ParsedField) (r : List Nat),
      find_next_field header pre = some (f, r) → r.length < header.length)
    ∧ (occurrences header pre).length ≤ header.length := by
  constructor
  · intro f r h
    exact find_next_field_shrink h
  · rw [occurrences]
    exact occs_loop_le pre _ header

/-- C9 (witness): on the header a; name=b the locator finds the name field
and hands back a strictly shorter remainder. -/
theorem find_next_field_terminates_witness :
    find_next_field [97, 59, 32, 110, 97, 109, 101, 61, 98] nameBytes
      = some (⟨[98], false, false⟩, [61, 98])
    ∧ ([61, 98] : List Nat).length
        < ([97, 59, 32, 110, 97, 109, 101, 61, 98] : List Nat).length
    ∧ (occurrences [97, 59, 32, 110, 97, 109, 101, 61, 98] nameBytes).length
        ≤ ([97, 59, 32, 110, 97, 109, 101, 61, 98] : List Nat).length := by
  refine ⟨by decide, ?_, ?_⟩
  · exact (find_next_field_terminates [97, 59, 32, 110, 97, 109, 101, 61, 98]
      nameBytes).1 ⟨[98], false, false⟩ [61, 98] (by decide)
  · exact (find_next_field_terminates [97, 59, 32, 110, 97, 109, 101, 61, 98]
      nameBytes).2

/-- C7: for every input, the value component extracted by
parse_extended_value is exactly the byte range starting immediately after
the second single-quote delimiter, ending at the first semicolon or end of
input, and further truncated at the first space byte anywhere within that
range; the function fails exactly when a single-quote delimiter is missing
or the charset or language segment is not valid UTF-8 (equivalence with
the range specification written from the claim). -/
theorem parse_extended_value_range (input : List Nat) :
    (parse_extended_value input).map (fun ev => ev.value)
      = extended_value_range_spec input := by
  simp only [parse_extended_value, extended_value_range_spec]
  rcases opt_cases (memchr 39 (trim_ascii_ws_start input)) with h1 | ⟨c, h1⟩
  · simp only [h1, Option.map_none']
  · simp only [h1]
    rcases opt_cases (memchr 39 ((trim_ascii_ws_start input).drop (c + 1))) with
      h2 | ⟨l, h2⟩
    · by_cases hcs : utf8Valid ((trim_ascii_ws_start input).take c) = true
      · simp [hcs, h2]
      · simp [hcs, h2]
    · by_cases hcs : utf8Valid ((trim_ascii_ws_start input).take c) = true
      · by_cases hl : utf8Valid (((trim_ascii_ws_start input).drop (c + 1)).take l) = true
        · simp only [hcs, h2, hl, eq_self_iff_true, if_true, Bool.and_self, takeToByte]
          rcases opt_cases (memchr 32 (((trim_ascii_ws_start input).drop (c + 1 + l + 1)).take
              ((memchr 59 ((trim_ascii_ws_start input).drop (c + 1 + l + 1))).getD
                ((trim_ascii_ws_start input).drop (c + 1 + l + 1)).length))) with
            h3 | ⟨p, h3⟩
          · simp only [h3, Option.getD_none, List.take_length, Option.map_some']
          · simp only [h3, Option.getD_some, Option.map_some']
        · simp [hcs, h2, hl]
      · simp [hcs, h2]

/-- C3 (counterexample): a percent sign followed by two bytes that do not
parse as a hexadecimal number makes percent_decode fail and return none,
refuting the claim that the function returns a value for every input and
copies malformed percent-encoding through literally. -/
theorem percent_decode_malformed_cex : percent_decode [37, 122, 122] = none := by decide

/-- C3 (amended): percent_decode returns the input unchanged when it
contains no percent byte; a percent byte followed by at least two further
bytes demands that those two bytes parse as a hexadecimal number (with the
optional leading plus sign accepted by the integer parser), and the whole
function returns none when that parse fails; only a percent byte followed
by fewer than two bytes is copied through literally. -/
theorem percent_decode_amended :
    (∀ input : List Nat, 37 ∉ input → percent_decode input = some input)
    ∧ (∀ (a b : Nat) (rest : List Nat), hex_pair_val a b = none →
        percent_decode (37 :: a :: b :: rest) = none)
    ∧ (∀ (a b d : Nat) (rest : List Nat), hex_pair_val a b = some d →
        percent_decode (37 :: a :: b :: rest) = (pdLoop rest).map (fun l => d :: l))
    ∧ (∀ a : Nat, percent_decode [37, a] = some [37, a])
    ∧ percent_decode [37] = some [37] := by
  refine ⟨?_, ?_, ?_, ?_, by decide⟩
  · intro input h
    simp [percent_decode, h]
  · intro a b rest h
    have hm : (37 : Nat) ∈ 37 :: a :: b :: rest := List.mem_cons_self _ _
    simp [percent_decode, hm, pdLoop, h]
  · intro a b d rest h
    have hm : (37 : Nat) ∈ 37 :: a :: b :: rest := List.mem_cons_self _ _
    simp [percent_decode, hm, pdLoop, h]
  · intro a
    have hm : (37 : Nat) ∈ [37, a] := List.mem_cons_self _ _
    simp [percent_decode, hm, pdLoop]

/-- C3 (witness): the amended theorem applied at concrete inputs: two g
bytes fail the hexadecimal parse and poison the whole decode, while the
digit pair 41 decodes to the byte 65. -/
theorem percent_decode_amended_witness :
    hex_pair_val 103 103 = none
    ∧ percent_decode [37, 103, 103, 120] = none
    ∧ hex_pair_val 52 49 = some 65
    ∧ percent_decode [37, 52, 49, 120] = some [65, 120] := by
  refine ⟨by decide, percent_decode_amended.2.1 103 103 [120] (by decide), by decide, ?_⟩
  have h := percent_decode_amended.2.2.1 52 49 65 [120] (by decide)
  exact h.trans (by decide)

/-- C5 (counterexample): the header consisting of the bare bytes of
name="hi", with no semicolon before the parameter, contains the quoted
text but extraction of Name yields absent, refuting the unrestricted
claim. -/
theorem extract_from_quoted_name_cex :
    extract_from .Name [110, 97, 109, 101, 61, 34, 104, 105, 34] = none
    ∧ extract_from .Name [110, 97, 109, 101, 61, 34, 104, 105, 34] ≠ some [104, 105] := by
  exact ⟨by decide, by decide⟩

/-- C5 (witness): the amended theorem applied to the header
form-data; name="hi". -/
theorem extract_from_quoted_name_amended_witness :
    extract_from .Name ([102, 111, 114, 109, 45, 100, 97, 116, 97]
      ++ 59 :: (nameBytes ++ 61 :: 34 :: ([104, 105] ++ 34 :: []))) = some [104, 105] :=
  extract_from_quoted_name_amended _ _ (by decide) (by decide) (by decide)

/-- C2 (counterexample): on the header x; name*=utf-8(q)(q)%ff; name=ok the
first located name occurrence is extended and its value %ff percent-decodes
to a non-UTF-8 byte, so the whole extraction returns absent, although the
later regular occurrence ok is present and decodes successfully; this
refutes the claim that an unparsable occurrence never makes the extraction
absent while a usable occurrence exists. -/
theorem extract_from_decode_failure_cex :
    extract_from .Name [120, 59, 32, 110, 97, 109, 101, 42, 61, 117, 116, 102, 45, 56,
        39, 39, 37, 102, 102, 59, 32, 110, 97, 109, 101, 61, 111, 107] = none
    ∧ (occurrences [120, 59, 32, 110, 97, 109, 101, 42, 61, 117, 116, 102, 45, 56,
        39, 39, 37, 102, 102, 59, 32, 110, 97, 109, 101, 61, 111, 107] nameBytes).map
        (fun f => (f.value, f.is_extended))
      = [([37, 102, 102], true), ([111, 107], false)]
    ∧ decodeRegular ⟨[111, 107], false, false⟩ = some [111, 107] := by
  exact ⟨by decide, by decide, by decide⟩

/-- C2 (witness): the amended theorem applied at concrete inputs: a first
occurrence with an unclosed quote is skipped and the later occurrence ok is
returned; a first extended occurrence whose value fails to decode makes the
whole extraction absent. -/
theorem extract_from_occurrence_failure_amended_witness :
    extract_from .Name ([120] ++ 59 :: (nameBytes ++ 61 :: 34 ::
        ([97] ++ 59 :: (nameBytes ++ 61 :: [111, 107])))) = some [111, 107]
    ∧ extract_from .Name [120, 59, 32, 110, 97, 109, 101, 42, 61, 117, 116, 102, 45,
        56, 39, 39, 37, 102, 102, 59, 32, 110, 97, 109, 101, 61, 111, 107] = none := by
  refine ⟨extract_from_occurrence_failure_amended.1 [120] [97] [111, 107]
    (by decide) (by decide) (by decide) (by decide), ?_⟩
  exact extract_from_occurrence_failure_amended.2 .Name _ ⟨[37, 102, 102], true, false⟩
    (by decide) (by decide)

/-- C8 (witness): the schematic theorem applied to the prelude form-data
and the file name a.txt, in both the plain and the extended variant. -/
theorem extract_from_filename_only_witness :
    (extract_from .Name ([102, 111, 114, 109, 45, 100, 97, 116, 97]
        ++ 59 :: (fileNameBytes ++ 61 :: [97, 46, 116, 120, 116])) = none
      ∧ extract_from .FileName ([102, 111, 114, 109, 45, 100, 97, 116, 97]
        ++ 59 :: (fileNameBytes ++ 61 :: [97, 46, 116, 120, 116])) = some [97, 46, 116, 120, 116])
    ∧ (extract_from .Name ([102, 111, 114, 109, 45, 100, 97, 116, 97]
        ++ 59 :: (fileNameBytes ++ 42 :: 61 ::
          ([117, 116, 102, 45, 56] ++ 39 :: 39 :: [97, 46, 116, 120, 116]))) = none
      ∧ extract_from .FileName ([102, 111, 114, 109, 45, 100, 97, 116, 97]
        ++ 59 :: (fileNameBytes ++ 42 :: 61 ::
          ([117, 116, 102, 45, 56] ++ 39 :: 39 :: [97, 46, 116, 120, 116])))
        = some [97, 46, 116, 120, 116]) :=
  extract_from_filename_only [102, 111, 114, 109, 45, 100, 97, 116, 97]
    [97, 46, 116, 120, 116] (by decide) (by decide) (by decide)

/-- C10 (counterexample): on the header form-data; name="a; name*=utf-8(q)(q)b"
the extraction of Name returns the two bytes b and the double quote, found
by rescanning inside the quoted regular value, and not the single byte b
that the claim predicts (the extended value is not quote-terminated, so it
swallows the closing quote). -/
theorem extract_from_rescan_cex :
    extract_from .Name [102, 111, 114, 109, 45, 100, 97, 116, 97, 59, 32, 110, 97,
        109, 101, 61, 34, 97, 59, 32, 110, 97, 109, 101, 42, 61, 117, 116, 102, 45,
        56, 39, 39, 98, 34] = some [98, 34]
    ∧ extract_from .Name [102, 111, 114, 109, 45, 100, 97, 116, 97, 59, 32, 110, 97,
        109, 101, 61, 34, 97, 59, 32, 110, 97, 109, 101, 42, 61, 117, 116, 102, 45,
        56, 39, 39, 98, 34] ≠ some [98] := by
  exact ⟨by decide, by decide⟩

/-- C10 (amended): after a field occurrence is matched, scanning resumes
from the byte immediately after the matched parameter name, inside the
matched field's own value, so a semicolon inside a quoted regular value
introduces further recognized occurrences: on the header
form-data; name="a; name*=utf-8(q)(q)b" the occurrence list holds the full
quoted regular value followed by an extended occurrence found inside it,
and extraction of Name returns that extended value, which is the byte b
together with the original closing quote (not the bare b, and not the
quoted string content). -/
theorem extract_from_rescan_amended :
    extract_from .Name [102, 111, 114, 109, 45, 100, 97, 116, 97, 59, 32, 110, 97,
        109, 101, 61, 34, 97, 59, 32, 110, 97, 109, 101, 42, 61, 117, 116, 102, 45,
        56, 39, 39, 98, 34] = some [98, 34]
    ∧ (occurrences [102, 111, 114, 109, 45, 100, 97, 116, 97, 59, 32, 110, 97, 109,
        101, 61, 34, 97, 59, 32, 110, 97, 109, 101, 42, 61, 117, 116, 102, 45, 56,
        39, 39, 98, 34] nameBytes).map (fun f => (f.value, f.is_extended))
      = [([97, 59, 32, 110, 97, 109, 101, 42, 61, 117, 116, 102, 45, 56, 39, 39, 98],
          false),
         ([98, 34], true)] := by
  exact ⟨by decide, by decide⟩
